import Mathlib

/-!
Shallow embedding of the Pumpkin server core (login name validation,
per-player chunk streaming queue, keep-alive tick, region-file chunk
location, anvil chunk-format decoding, and the chat signature cache),
with theorems settling the specification claims against it.

Each definition is translated from the Rust source; definitions whose
doc comment starts with `Modelled from the spec:` stand for repository
code that is not part of the provided sources.
-/

namespace Pumpkin

/-- Constant from pumpkin-world/src/chunk/world_format.rs: `CHUNK_AREA = 16 * 16`. -/
def CHUNK_AREA : Nat := 16 * 16

/-- Constant from pumpkin-world/src/chunk/world_format.rs: `SUBCHUNK_VOLUME = CHUNK_AREA * 16`. -/
def SUBCHUNK_VOLUME : Nat := CHUNK_AREA * 16

/-- Constant from pumpkin-world/src/chunk/world_format.rs:
`CHUNK_VOLUME = CHUNK_AREA * WORLD_HEIGHT`. `WORLD_HEIGHT` is declared in the
crate root, which is not among the provided sources, so the world height is
kept as a parameter. -/
def CHUNK_VOLUME (worldHeight : Nat) : Nat := CHUNK_AREA * worldHeight

/-! ### Login name validation (pumpkin/src/client/client_packet.rs) -/

/-- Byte length of a string in UTF-8, i.e. Rust `str::len`.
The name is modelled as its list of unicode scalar values. -/
def utf8Len (name : List Char) : Nat := (name.map Char.utf8Size).sum

/-- Translation of `Client::is_valid_player_name`:
`name.len() <= 16 && name.chars().all(|c| c > 32_u8 as char && c < 127_u8 as char)`. -/
def is_valid_player_name (name : List Char) : Bool :=
  utf8Len name ≤ 16 && name.all (fun c => 32 < c.toNat && c.toNat < 127)

/-- Game profile as far as the login-start handler is concerned
(uuid kept opaque as a number). -/
structure GameProfile where
  id : Nat
  name : List Char
deriving DecidableEq

/-- Outcome of a login-start packet. -/
inductive LoginResult where
  | kick (msg : String)
  | proceed
deriving DecidableEq

/-- Translation of the validation gate of `Client::handle_login_start` in the
no-proxy branch: an invalid name is kicked with the exact message
"Invalid characters in username" before any game profile is set; otherwise the
profile is stored and the login proceeds (encryption request is sent). -/
def handle_login_start (uuid : Nat) (name : List Char) : LoginResult × Option GameProfile :=
  if !(is_valid_player_name name) then
    (.kick "Invalid characters in username", none)
  else
    (.proceed, some { id := uuid, name := name })

/-! ### Chunk streaming queue (pumpkin/src/entity/player/world.rs) -/

/-- Translation of `BatchState`. -/
inductive BatchState where
  | initial
  | waiting
  | count (n : Nat)
deriving DecidableEq

/-- Constant `ChunkManager::NOTCHIAN_BATCHES_WITHOUT_ACK_UNTIL_PAUSE`. -/
def NOTCHIAN_BATCHES_WITHOUT_ACK_UNTIL_PAUSE : Nat := 10

/-- Translation of `ChunkManager`; queue entries are a chunk position paired
with an opaque chunk handle `α`. The entity queue is omitted (no claim uses it). -/
structure ChunkManager (α : Type) where
  chunks_per_tick : Nat
  chunk_queue : List ((Int × Int) × α)
  batches_sent_since_ack : BatchState

/-- Translation of `ChunkManager::new`. -/
def ChunkManager.new (α : Type) (chunks_per_tick : Nat) : ChunkManager α :=
  { chunks_per_tick := chunks_per_tick, chunk_queue := [], batches_sent_since_ack := .initial }

/-- Translation of `ChunkManager::handle_acknowledge`. The Rust argument is an
`f32`; it is embedded as a rational number, and `.ceil() as usize` is the
ceiling saturated at zero for negative inputs (`Int.toNat`). -/
def handle_acknowledge (m : ChunkManager α) (chunks_per_tick : ℚ) : ChunkManager α :=
  { m with
    batches_sent_since_ack := .count 0,
    chunks_per_tick := (Int.ceil chunks_per_tick).toNat }

/-- Translation of `ChunkManager::push_chunk` (push_back). -/
def push_chunk (m : ChunkManager α) (position : Int × Int) (chunk : α) : ChunkManager α :=
  { m with chunk_queue := m.chunk_queue ++ [(position, chunk)] }

/-- Translation of `ChunkManager::can_send_chunk`. -/
def can_send_chunk (m : ChunkManager α) : Bool :=
  (match m.batches_sent_since_ack with
    | .count n => decide (n < NOTCHIAN_BATCHES_WITHOUT_ACK_UNTIL_PAUSE)
    | .initial => true
    | .waiting => false)
  && !(m.chunk_queue.isEmpty)

/-- Translation of `ChunkManager::next_chunk`: drain up to `chunks_per_tick`
entries from the queue front, then advance the batch state
(`Count(n)` increments `n`, `Initial` becomes `Waiting`, `Waiting` stays). -/
def next_chunk (m : ChunkManager α) : List α × ChunkManager α :=
  let chunk_size := min m.chunk_queue.length m.chunks_per_tick
  let chunks := (m.chunk_queue.take chunk_size).map (fun e => e.2)
  let st :=
    match m.batches_sent_since_ack with
    | .count n => BatchState.count (n + 1)
    | .initial => BatchState.waiting
    | .waiting => BatchState.waiting
  (chunks,
   { m with chunk_queue := m.chunk_queue.drop chunk_size, batches_sent_since_ack := st })

/-! ### Keep-alive section of Player::tick (pumpkin/src/entity/player/mod.rs) -/

/-- Translation of the two `ClientPlatform` variants. -/
inductive ClientPlatform where
  | java
  | bedrock
deriving DecidableEq

/-- Timer state used by the keep-alive block of `Player::tick`.
Times are in milliseconds of a monotonic clock. -/
structure KeepAliveState where
  last_keep_alive_time : Nat
  wait_for_keep_alive : Bool
  keep_alive_id : Int
deriving DecidableEq

/-- Observable action of the keep-alive block in one tick. -/
inductive TickAction where
  | kick (translationKey : String)
  | sendKeepAlive (id : Int)
  | noAction
deriving DecidableEq

/-- Interpretation of a `u128` millisecond count cast `as i64`
(truncation to the low 64 bits, two's complement). -/
def i64ofNat (n : Nat) : Int :=
  if n % 2 ^ 64 < 2 ^ 63 then ((n % 2 ^ 64 : Nat) : Int)
  else ((n % 2 ^ 64 : Nat) : Int) - 2 ^ 64

/-- Translation of the keep-alive block at the end of `Player::tick`:
if 15 s have elapsed since the last keep-alive send, a Bedrock client returns
without action; otherwise, if still awaiting a response the player is kicked
with the translated "disconnect.timeout" component, else a new keep-alive is
sent whose id is `now.elapsed().as_millis() as i64` (`elapsed_ms` is the value
of that clock read), the id is stored, and the awaiting flag is set. -/
def tick_keep_alive (platform : ClientPlatform) (now elapsed_ms : Nat)
    (s : KeepAliveState) : TickAction × KeepAliveState :=
  if 15000 ≤ now - s.last_keep_alive_time then
    if platform = .bedrock then (.noAction, s)
    else if s.wait_for_keep_alive then
      (.kick "disconnect.timeout", s)
    else
      let id := i64ofNat elapsed_ms
      (.sendKeepAlive id,
       { last_keep_alive_time := now, wait_for_keep_alive := true, keep_alive_id := id })
  else (.noAction, s)

/-! ### Region-file chunk location (pumpkin-world/src/chunk/anvil_temp/mod.rs) -/

/-- Failure taxonomy from pumpkin-world/src/chunk/world_format.rs. -/
inductive WorldHandlingError where
  | WorldInUse
  | IoError
  | NotFound
  | DeserializationError (msg : String)
  | ChunkNotGenerated
  | CompressionError
  | OutdatedWorldFormat
  | Other (msg : String)
deriving DecidableEq

/-- Translation of the closure `modulus = |a, b| ((a % b) + b) % b` in
`read_chunk`; Rust `%` on `i32` is the truncating remainder `Int.tmod`. -/
def modulus (a b : Int) : Int := Int.tmod (Int.tmod a b + b) b

/-- Translation of `let region = (at.x >> 5, at.z >> 5)` (arithmetic shift on `i32`). -/
def region_coords (cx cz : Int) : Int × Int := (cx >>> (5 : Nat), cz >>> (5 : Nat))

/-- Translation of the path argument
`format!("region/r_{}_{}.mca", region.0, region.1)` of `read_chunk`. -/
def region_file_name (cx cz : Int) : String :=
  "region/r_" ++ toString (region_coords cx cz).1 ++ "_"
    ++ toString (region_coords cx cz).2 ++ ".mca"

/-- Translation of `let table_entry = (chunk_x + chunk_z * 32) * 4` with
`chunk_x = modulus(at.x, 32) as u32` and `chunk_z = modulus(at.z, 32) as u32`. -/
def table_entry (cx cz : Int) : Nat :=
  ((modulus cx 32).toNat + (modulus cz 32).toNat * 32) * 4

/-- Translation of the location-table entry decode in `read_chunk`: the offset
is `u32::from_be_bytes([0, t[e], t[e+1], t[e+2]]) as u64 * 4096` and the size
is `t[e+3] as usize * 4096`. The table is the 4096-byte location table as a
list of byte values. -/
def location_entry (table : List Nat) (e : Nat) : Nat × Nat :=
  (((table.getD e 0 * 256 + table.getD (e + 1) 0) * 256 + table.getD (e + 2) 0) * 4096,
   table.getD (e + 3) 0 * 4096)

/-- Translation of the chunk-location step of `AnvilWorldFormat::read_chunk`
(everything between reading the location table and seeking to the payload):
decode the entry for the chunk and report `NotFound` when both the sector
offset and the sector size are zero, otherwise return the byte offset and size
to read. -/
def read_chunk_locate (table : List Nat) (cx cz : Int) :
    Except WorldHandlingError (Nat × Nat) :=
  let e := table_entry cx cz
  let entry := location_entry table e
  if entry.1 = 0 ∧ entry.2 = 0 then .error .NotFound
  else .ok entry

/-! ### Anvil chunk decoding (pumpkin-world/src/chunk/anvil_temp/chunk_format.rs) -/

/-- Translation of `ChunkSectionBlockStates`; the `data` longs are kept as
their unsigned 64-bit patterns. -/
structure ChunkSectionBlockStates where
  data : Option (List Nat)
  palette : List String

/-- Translation of `ChunkSection`. -/
structure ChunkSection where
  y : Int
  block_states : Option ChunkSectionBlockStates

/-- Fuel-bounded bit length (position of the highest set bit plus one),
executable by the kernel. -/
def bit_len_aux : Nat → Nat → Nat
  | 0, _ => 0
  | fuel + 1, n => if n = 0 then 0 else bit_len_aux fuel (n / 2) + 1

/-- Translation of `i64::leading_zeros` for values in the `i64` range:
zero for negative values (sign bit set), otherwise 64 minus the bit length. -/
def leading_zeros_i64 (v : Int) : Nat :=
  if v < 0 then 0 else 64 - bit_len_aux 64 v.toNat

/-- Translation of the `block_bit_size` computation in `to_chunk_data`:
`max(4, 64 - (pallete.len() as i64 - 1).leading_zeros())`. -/
def block_bit_size (palette_len : Nat) : Nat :=
  max 4 (64 - leading_zeros_i64 ((palette_len : Int) - 1))

/-- Translation of `blocks_in_pallete = 64 / block_bit_size`. -/
def blocks_in_pallete (palette_len : Nat) : Nat := 64 / block_bit_size palette_len

/-- Translation of `mask = (1 << block_bit_size) - 1`; the shift amount is
reduced mod 64 as Rust release builds mask the shift amount of `i64`. -/
def mask_of (bbs : Nat) : Nat := (1 <<< (bbs % 64)) - 1

/-- Translation of the lane extraction
`(block >> (i * block_bit_size)) & mask` of `to_chunk_data`. The word is the
unsigned 64-bit pattern of the `i64`; for the lanes actually visited
(`i < blocks_in_pallete`) the arithmetic shift followed by the mask coincides
with this logical shift. -/
def extract_lane (word i bbs : Nat) : Nat := (word >>> (i * bbs)) &&& mask_of bbs

/-- Running state of the decoding loop: the dense block array and the flat
write index `block_index`. -/
structure DecodeState where
  blocks : List Nat
  block_index : Nat
deriving DecidableEq

/-- Translation of the write
`chunk.set_block_no_heightmap_update(ChunkRelativeBlockCoordinates { .. }, id)`
with the coordinates derived from `block_index` as in the source
(`x = bi % 16`, `y = Height::from_absolute((bi / CHUNK_AREA) as u16)`,
`z = (bi % CHUNK_AREA) / 16`) and the flat index recomputed by
`ChunkData::convert_index` as `y * CHUNK_AREA + z * 16 + x`.
Modelled from the spec: the `Height` type lives in the coordinates module,
which is not among the provided sources; per the spec the absolute value
stored by `from_absolute` is returned unchanged by `get_absolute`.
The array access panics when the flat index reaches `CHUNK_VOLUME`;
a panic is `none`. -/
def set_block_no_heightmap_update (vol : Nat) (st : DecodeState) (id : Nat) :
    Option DecodeState :=
  let x := st.block_index % 16
  let y := st.block_index / CHUNK_AREA
  let z := st.block_index % CHUNK_AREA / 16
  let flat := y * CHUNK_AREA + z * 16 + x
  if flat < vol then
    some { blocks := st.blocks.set flat id, block_index := st.block_index + 1 }
  else none

/-- Translation of the inner lane loop `for i in 0..blocks_in_pallete` of
`to_chunk_data`, processing the remaining `rem` lanes of one word starting at
lane `i`. The boolean result records whether the labelled
`break 'block_loop` fired (the write index reached a multiple of
`SUBCHUNK_VOLUME`); `none` models a panic (palette lookup `pallete[index]`
out of bounds, or the block write out of bounds). -/
def run_lanes (vol : Nat) (pal : List Nat) (bbs word : Nat) :
    Nat → Nat → DecodeState → Option (DecodeState × Bool)
  | _, 0, st => some (st, false)
  | i, rem + 1, st =>
    match pal[extract_lane word i bbs]? with
    | none => none
    | some id =>
      match set_block_no_heightmap_update vol st id with
      | none => none
      | some st2 =>
        if st2.block_index % SUBCHUNK_VOLUME = 0 then some (st2, true)
        else run_lanes vol pal bbs word (i + 1) rem st2

/-- Translation of the labelled word loop `'block_loop: for block in block_data`
of `to_chunk_data`. -/
def run_words (vol : Nat) (pal : List Nat) (bbs bip : Nat) :
    List Nat → DecodeState → Option DecodeState
  | [], st => some st
  | w :: ws, st =>
    match run_lanes vol pal bbs w 0 bip st with
    | none => none
    | some (st2, true) => some st2
    | some (st2, false) => run_words vol pal bbs bip ws st2

/-- Translation of one iteration of `for section in chunk_data.sections` in
`to_chunk_data`: a section without `block_states` is skipped by `continue`
(the write index is left unchanged); a section whose `data` is absent advances
the write index by `SUBCHUNK_VOLUME`; otherwise the palette is resolved
through the block registry (unknown names become `AIR`, whose id is
`air_id`) and the packed words are decoded.
Modelled from the spec: `BlockState::new` and the block registry live outside
the provided sources and are abstracted as the map `registry`. -/
def process_section (vol : Nat) (registry : String → Option Nat) (air_id : Nat)
    (st : DecodeState) (sec : ChunkSection) : Option DecodeState :=
  match sec.block_states with
  | none => some st
  | some block_states =>
    let pal := block_states.palette.map (fun entry => (registry entry).getD air_id)
    match block_states.data with
    | none => some { st with block_index := st.block_index + SUBCHUNK_VOLUME }
    | some block_data =>
      let bbs := block_bit_size pal.length
      run_words vol pal bbs (64 / bbs) block_data st

/-- Translation of the whole section loop of `to_chunk_data`. -/
def decode_sections (vol : Nat) (registry : String → Option Nat) (air_id : Nat) :
    List ChunkSection → DecodeState → Option DecodeState
  | [], st => some st
  | sec :: rest, st =>
    match process_section vol registry air_id st sec with
    | none => none
    | some st2 => decode_sections vol registry air_id rest st2

/-- Anvil data version constant from chunk_format.rs. -/
def DATA_VERSION : Int := 4189

/-- Input of `to_chunk_data` after NBT deserialization: the chunk status
string, `DataVersion`, sections and heightmaps. -/
structure AnvilChunkData where
  status : String
  data_version : Int
  sections : List ChunkSection
  motion_blocking : List Nat
  world_surface : List Nat

/-- Translation of `AnvilChunkData::to_chunk_data`: reject chunks whose status
is not `minecraft:full` with `ChunkNotGenerated`, reject a wrong `DataVersion`
with `OutdatedWorldFormat`, then decode all sections into the
`CHUNK_VOLUME`-sized zero-initialized block array. The outer `Option` models
panics inside the section loop (`none` is a panic); errors are values. -/
def to_chunk_data (worldHeight : Nat) (registry : String → Option Nat) (air_id : Nat)
    (c : AnvilChunkData) : Option (Except WorldHandlingError (List Nat)) :=
  if c.status ≠ "minecraft:full" then some (.error .ChunkNotGenerated)
  else if c.data_version ≠ DATA_VERSION then some (.error .OutdatedWorldFormat)
  else
    let vol := CHUNK_VOLUME worldHeight
    match decode_sections vol registry air_id c.sections ⟨List.replicate vol 0, 0⟩ with
    | none => none
    | some st => some (.ok st.blocks)

/-! Index-count mirror of the decoding loops: the same control flow, tracking
only the write index. It is total and lets the panic-freedom precondition be
phrased about the input. -/

/-- Write index and break flag after processing `rem` lanes of one word. -/
def lanes_count : Nat → Nat → Nat × Bool
  | 0, idx => (idx, false)
  | rem + 1, idx =>
    if (idx + 1) % SUBCHUNK_VOLUME = 0 then (idx + 1, true)
    else lanes_count rem (idx + 1)

/-- Write index after processing `n` words of `bip` lanes each. -/
def words_count (bip : Nat) : Nat → Nat → Nat
  | 0, idx => idx
  | n + 1, idx =>
    let r := lanes_count bip idx
    if r.2 then r.1 else words_count bip n r.1

/-- Write index after one section. -/
def section_index (sec : ChunkSection) (idx : Nat) : Nat :=
  match sec.block_states with
  | none => idx
  | some block_states =>
    match block_states.data with
    | none => idx + SUBCHUNK_VOLUME
    | some block_data =>
      words_count (64 / block_bit_size block_states.palette.length) block_data.length idx

/-- Write index after all sections. -/
def final_index (sections : List ChunkSection) (idx : Nat) : Nat :=
  sections.foldl (fun i s => section_index s i) idx

/-- Number of sections that are skipped with an index bump, i.e. have
`block_states` but no `data`. -/
def skip_section_count (sections : List ChunkSection) : Nat :=
  (sections.filter (fun s =>
    match s.block_states with
    | none => false
    | some bs => bs.data.isNone)).length

/-- Number of block writes performed across all sections (every index step
that is not one of the `SUBCHUNK_VOLUME` bumps of a skipped section). -/
def total_writes (sections : List ChunkSection) : Nat :=
  final_index sections 0 - SUBCHUNK_VOLUME * skip_section_count sections

/-- Palette length of a section (zero when `block_states` is absent, in which
case no lane is ever decoded). -/
def section_palette_len (sec : ChunkSection) : Nat :=
  match sec.block_states with
  | none => 0
  | some bs => bs.palette.length

/-- Packed data words of a section (empty when absent, in which case no lane
is ever decoded). -/
def section_data (sec : ChunkSection) : List Nat :=
  match sec.block_states with
  | none => []
  | some bs => bs.data.getD []

/-! ### Chat signature cache (pumpkin/src/entity/player/chat.rs, last_seen.rs) -/

/-- Message signatures are opaque byte strings. -/
abbrev Sig := List Nat

/-- Constant `MAX_CACHED_SIGNATURES` from chat.rs. -/
def MAX_CACHED_SIGNATURES : Nat := 128

/-- Constant `MAX_PREVIOUS_MESSAGES` from chat.rs. -/
def MAX_PREVIOUS_MESSAGES : Nat := 20

/-- Translation of `MessageCache`: `full_cache` is the deque with the most
recent signature first (`push_front` is `cons`, `push_back` appends), and
`last_seen` is the `LastSeen` vector with the oldest signature first. -/
structure MessageCache where
  full_cache : List Sig
  last_seen : List Sig
deriving DecidableEq

/-- Translation of `MessageCache::default` (both containers empty). -/
def MessageCache.default : MessageCache := ⟨[], []⟩

/-- One iteration of the `cache_signatures` loop body: skip a signature that
is already present; push at the back only while the cache holds fewer than
`MAX_CACHED_SIGNATURES` entries. -/
def cache_one (c : MessageCache) (sig : Sig) : MessageCache :=
  if sig ∈ c.full_cache then c
  else if c.full_cache.length < MAX_CACHED_SIGNATURES then
    { c with full_cache := c.full_cache ++ [sig] }
  else c

/-- Translation of `MessageCache::cache_signatures`: walk the input in
reverse, applying the loop body to each signature. -/
def cache_signatures (c : MessageCache) (signatures : List Sig) : MessageCache :=
  signatures.reverse.foldl cache_one c

/-- Translation of the loop
`while self.full_cache.len() >= MAX_CACHED_SIGNATURES { self.full_cache.pop_back(); }`. -/
def pop_back_while_full (l : List Sig) : List Sig :=
  if 128 ≤ l.length then pop_back_while_full l.dropLast else l
termination_by l.length
decreasing_by
  rw [List.length_dropLast]
  omega

/-- Translation of `MessageCache::add_seen_signature`: drop the oldest
last-seen entry once the list is full, append the new signature, then pop the
back of the full cache until it is below capacity and push the signature at
the front. -/
def add_seen_signature (c : MessageCache) (sig : Sig) : MessageCache :=
  let seen := if MAX_PREVIOUS_MESSAGES ≤ c.last_seen.length
    then c.last_seen.drop 1 else c.last_seen
  { full_cache := sig :: pop_back_while_full c.full_cache,
    last_seen := seen ++ [sig] }

/-- One cache operation, for stating invariants over arbitrary call sequences. -/
inductive CacheOp where
  | addSeen (sig : Sig)
  | cacheSigs (sigs : List Sig)

/-- Apply one cache operation. -/
def apply_op (c : MessageCache) : CacheOp → MessageCache
  | .addSeen sig => add_seen_signature c sig
  | .cacheSigs sigs => cache_signatures c sigs

/-- Apply a sequence of cache operations in order. -/
def apply_ops (c : MessageCache) (ops : List CacheOp) : MessageCache :=
  ops.foldl apply_op c

/-- Translation of `PreviousMessage` (the id is the `VarInt` value). -/
structure PreviousMessage where
  id : Int
  signature : Option Sig
deriving DecidableEq

/-- Translation of `LastSeen::indexed_for`: for each signature of the sender's
last-seen list in order, search the recipient's `full_cache` for its first
position; found at `i` yields id `1 + i` with no signature, otherwise id `0`
carrying the full signature. -/
def indexed_for (seen : List Sig) (full_cache : List Sig) : List PreviousMessage :=
  seen.map (fun sig =>
    match full_cache.findIdx? (fun s => decide (s = sig)) with
    | some i => { id := 1 + (i : Int), signature := none }
    | none => { id := 0, signature := some sig })

/-! ### Theorems -/

/-- Every character contributes at least one byte to the UTF-8 length. -/
theorem length_le_utf8Len (name : List Char) : name.length ≤ utf8Len name := by
  induction name with
  | nil => simp [utf8Len]
  | cons c cs ih =>
    have hc : 0 < c.utf8Size := Char.utf8Size_pos c
    simp only [utf8Len, List.map_cons, List.sum_cons, List.length_cons] at *
    omega

/-- C3, counterexample: the empty username is accepted by
`is_valid_player_name`, so `handle_login_start` proceeds (and sets a profile)
for a name of length 0, contradicting the claimed lower bound
`1 ≤ len`. -/
theorem c3_empty_name_counterexample :
    handle_login_start 0 [] = (LoginResult.proceed, some ⟨0, []⟩) ∧
    ([] : List Char).length = 0 := by
  constructor
  · decide
  · rfl

/-- C3, amended: `handle_login_start` proceeds if and only if the username
has UTF-8 byte length at most 16 (no lower bound: the empty name is accepted)
and every character code is strictly in the printable-ASCII range 33..=126;
a proceeding name also has at most 16 characters; otherwise the client is
kicked with exactly "Invalid characters in username" and no game profile is
set. -/
theorem c3_login_name_validation_amended :
    ∀ (uuid : Nat) (name : List Char),
      ((handle_login_start uuid name).1 = LoginResult.proceed ↔
        (utf8Len name ≤ 16 ∧ ∀ c ∈ name, 33 ≤ c.toNat ∧ c.toNat ≤ 126)) ∧
      ((handle_login_start uuid name).1 = LoginResult.proceed →
        name.length ≤ 16) ∧
      ((handle_login_start uuid name).1 ≠ LoginResult.proceed →
        handle_login_start uuid name =
          (LoginResult.kick "Invalid characters in username", none)) := by
  intro uuid name
  have hchar : ∀ c : Char, (32 < c.toNat ∧ c.toNat < 127) ↔
      (33 ≤ c.toNat ∧ c.toNat ≤ 126) := fun c => by omega
  have hval : is_valid_player_name name = true ↔
      (utf8Len name ≤ 16 ∧ ∀ c ∈ name, 33 ≤ c.toNat ∧ c.toNat ≤ 126) := by
    simp only [is_valid_player_name, Bool.and_eq_true, decide_eq_true_eq,
      List.all_eq_true, Bool.and_eq_true]
    constructor
    · rintro ⟨h1, h2⟩
      refine ⟨h1, fun c hc => ?_⟩
      have := h2 c hc
      simp only [decide_eq_true_eq] at this
      omega
    · rintro ⟨h1, h2⟩
      refine ⟨h1, fun c hc => ?_⟩
      have := h2 c hc
      omega
  by_cases h : is_valid_player_name name
  · have he : handle_login_start uuid name = (.proceed, some ⟨uuid, name⟩) := by
      simp [handle_login_start, h]
    refine ⟨?_, ?_, ?_⟩
    · rw [he]
      exact iff_of_true rfl (hval.mp h)
    · intro _
      exact le_trans (length_le_utf8Len name) (hval.mp h).1
    · intro hne
      exact absurd (by rw [he]) hne
  · have he : handle_login_start uuid name =
        (.kick "Invalid characters in username", none) := by
      simp [handle_login_start, h]
    refine ⟨?_, ?_, ?_⟩
    · rw [he]
      exact iff_of_false (by simp) (fun hrhs => absurd (hval.mpr hrhs) h)
    · intro hp
      rw [he] at hp
      exact absurd hp (by simp)
    · intro _
      exact he

/-- C3, witness: a 17-character name is rejected with exactly the kick
message and no game profile. -/
theorem c3_login_name_validation_witness :
    handle_login_start 7 (List.replicate 17 'a') =
      (LoginResult.kick "Invalid characters in username", none) := by
  exact (c3_login_name_validation_amended 7 (List.replicate 17 'a')).2.2 (by decide)

/-- C4, counterexample: in state `Initial` with an empty queue,
`can_send_chunk` is `false`, so "in state Initial sending is allowed" does not
hold unconditionally — sending additionally requires a nonempty chunk queue. -/
theorem c4_empty_queue_counterexample :
    can_send_chunk (ChunkManager.mk 16 [] BatchState.initial : ChunkManager Unit)
      = false := by
  rfl

/-- C4, amended: sending additionally requires a nonempty chunk queue.
With a nonempty queue, state `Initial` allows sending and a send moves to
`Waiting`; `Waiting` never allows sending; `Count(n)` allows sending iff
`n < 10` and the queue is nonempty, and a send increments `n`; a client
acknowledgment sets the state to `Count(0)` and `chunks_per_tick` to the
ceiling of the desired rate; a send drains at most `chunks_per_tick`
entries. -/
theorem c4_chunk_manager_amended :
    ∀ (α : Type) (m : ChunkManager α) (n : Nat) (q : ℚ),
      (m.batches_sent_since_ack = .initial → m.chunk_queue ≠ [] →
        can_send_chunk m = true) ∧
      (m.batches_sent_since_ack = .initial →
        (next_chunk m).2.batches_sent_since_ack = .waiting) ∧
      (m.batches_sent_since_ack = .waiting → can_send_chunk m = false) ∧
      (m.batches_sent_since_ack = .count n →
        (can_send_chunk m = true ↔ n < 10 ∧ m.chunk_queue ≠ [])) ∧
      (m.batches_sent_since_ack = .count n →
        (next_chunk m).2.batches_sent_since_ack = .count (n + 1)) ∧
      ((handle_acknowledge m q).batches_sent_since_ack = .count 0) ∧
      (0 ≤ q → ((handle_acknowledge m q).chunks_per_tick : Int) = Int.ceil q) ∧
      ((next_chunk m).1.length ≤ m.chunks_per_tick) := by
  intro α m n q
  refine ⟨?_, ?_, ?_, ?_, ?_, ?_, ?_, ?_⟩
  · intro hst hq
    simp [can_send_chunk, hst, List.isEmpty_iff, hq]
  · intro hst
    simp [next_chunk, hst]
  · intro hst
    simp [can_send_chunk, hst]
  · intro hst
    simp [can_send_chunk, hst, List.isEmpty_iff,
      NOTCHIAN_BATCHES_WITHOUT_ACK_UNTIL_PAUSE]
  · intro hst
    simp [next_chunk, hst]
  · simp [handle_acknowledge]
  · intro hq
    simp only [handle_acknowledge]
    exact Int.toNat_of_nonneg (Int.ceil_nonneg hq)
  · simp only [next_chunk, List.length_map, List.length_take]
    omega

/-- C4, witness: a `Count(3)` manager with one queued chunk may send, and an
acknowledgment with desired rate 7/2 sets `chunks_per_tick` to 4. -/
theorem c4_chunk_manager_witness :
    can_send_chunk (ChunkManager.mk 2 [((0, 0), ())] (BatchState.count 3)
        : ChunkManager Unit) = true ∧
    ((handle_acknowledge (ChunkManager.mk 2 [((0, 0), ())] (BatchState.count 3)
        : ChunkManager Unit) (7 / 2)).chunks_per_tick : Int) = Int.ceil (7 / 2 : ℚ) := by
  have h := c4_chunk_manager_amended Unit
    (ChunkManager.mk 2 [((0, 0), ())] (BatchState.count 3)) 3 (7 / 2)
  exact ⟨(h.2.2.2.1 rfl).mpr ⟨by norm_num, by simp⟩,
    h.2.2.2.2.2.2.1 (by norm_num)⟩

/-- C5, counterexample: a Bedrock client with the awaiting flag set and 15 s
elapsed is not kicked — the keep-alive block returns without any action —
so the claimed unconditional timeout kick fails. -/
theorem c5_bedrock_counterexample :
    tick_keep_alive .bedrock 15000 0 ⟨0, true, 0⟩ = (.noAction, ⟨0, true, 0⟩) ∧
    (TickAction.noAction ≠ TickAction.kick "disconnect.timeout") := by
  constructor
  · rfl
  · decide

/-- C5, amended (restricted to Java clients; Bedrock clients skip the
keep-alive block entirely): when 15 s have elapsed and the awaiting flag is
set, the player is kicked with the translated "disconnect.timeout" component
and the timer state is left unchanged; when 15 s have elapsed and the flag is
clear, a keep-alive is sent whose payload is the elapsed-millisecond clock
value as a 64-bit signed integer, that id is stored, and the flag is set;
before 15 s nothing happens; and on any platform a timeout kick happens only
when both conditions hold. -/
theorem c5_keep_alive_amended :
    ∀ (now elapsed_ms : Nat) (s : KeepAliveState),
      (15000 ≤ now - s.last_keep_alive_time → s.wait_for_keep_alive = true →
        tick_keep_alive .java now elapsed_ms s = (.kick "disconnect.timeout", s)) ∧
      (15000 ≤ now - s.last_keep_alive_time → s.wait_for_keep_alive = false →
        tick_keep_alive .java now elapsed_ms s =
          (.sendKeepAlive (i64ofNat elapsed_ms),
            ⟨now, true, i64ofNat elapsed_ms⟩)) ∧
      (now - s.last_keep_alive_time < 15000 →
        tick_keep_alive .java now elapsed_ms s = (.noAction, s)) ∧
      (∀ p, (tick_keep_alive p now elapsed_ms s).1 = .kick "disconnect.timeout" →
        15000 ≤ now - s.last_keep_alive_time ∧ s.wait_for_keep_alive = true) := by
  intro now elapsed_ms s
  refine ⟨?_, ?_, ?_, ?_⟩
  · intro h1 h2
    simp [tick_keep_alive, h1, h2]
  · intro h1 h2
    simp [tick_keep_alive, h1, h2]
  · intro h1
    have : ¬(15000 ≤ now - s.last_keep_alive_time) := by omega
    simp [tick_keep_alive, this]
  · intro p h
    by_cases h1 : 15000 ≤ now - s.last_keep_alive_time
    · refine ⟨h1, ?_⟩
      by_cases h2 : s.wait_for_keep_alive
      · exact h2
      · cases p <;> simp [tick_keep_alive, h1, h2] at h
    · simp [tick_keep_alive, h1] at h

/-- C5, witness: a Java client 20 s past the last send and still awaiting is
kicked with the timeout component. -/
theorem c5_keep_alive_witness :
    tick_keep_alive .java 20000 0 ⟨0, true, 0⟩ =
      (.kick "disconnect.timeout", ⟨0, true, 0⟩) := by
  exact (c5_keep_alive_amended 20000 0 ⟨0, true, 0⟩).1 (by norm_num) rfl

/-- Rust truncating remainder by 32 is greater than -32. -/
theorem tmod_32_lower (a : Int) : -32 < a.tmod 32 := by
  cases a with
  | ofNat m =>
    have h := Int.tmod_nonneg (a := Int.ofNat m) 32 (Int.ofNat_nonneg m)
    omega
  | negSucc m =>
    have h : (Int.negSucc m).tmod 32 = -(((m + 1) % 32 : Nat) : Int) := rfl
    have h2 : (m + 1) % 32 < 32 := Nat.mod_lt _ (by norm_num)
    omega

/-- The `((a % b) + b) % b` closure of `read_chunk` at `b = 32` is the
non-negative floor-mod. -/
theorem modulus_32_eq_emod (a : Int) : modulus a 32 = a % 32 := by
  have hlow := tmod_32_lower a
  have hhigh := Int.tmod_lt_of_pos a (b := 32) (by norm_num)
  have h0 : (0 : Int) ≤ a.tmod 32 + 32 := by omega
  unfold modulus
  rw [Int.tmod_eq_emod h0 (by norm_num)]
  have hd : a.tmod 32 = a - 32 * a.tdiv 32 := Int.tmod_def a 32
  omega

/-- The floor-mod result is non-negative. -/
theorem modulus_32_nonneg (a : Int) : 0 ≤ modulus a 32 := by
  rw [modulus_32_eq_emod]
  exact Int.emod_nonneg a (by norm_num)

/-- The floor-mod result is below 32. -/
theorem modulus_32_lt (a : Int) : modulus a 32 < 32 := by
  rw [modulus_32_eq_emod]
  exact Int.emod_lt_of_pos a (by norm_num)

/-- Arithmetic right shift by five on integers is floor division by 32. -/
theorem shiftRight_five_eq_fdiv (c : Int) : c >>> (5 : Nat) = Int.fdiv c 32 := by
  rw [Int.shiftRight_eq_div_pow, Int.fdiv_eq_ediv c (by norm_num : (0 : Int) ≤ 32)]
  norm_num

/-- The location-table entry index stays inside the 4096-byte table. -/
theorem table_entry_bound (cx cz : Int) : table_entry cx cz + 3 < 4096 := by
  unfold table_entry
  have h1 := modulus_32_nonneg cx
  have h2 := modulus_32_lt cx
  have h3 := modulus_32_nonneg cz
  have h4 := modulus_32_lt cz
  omega

/-- C2, counterexample: the source opens `region/r_{rx}_{rz}.mca` with
underscores, not the claimed canonical dotted form `region/r.{rx}.{rz}.mca`. -/
theorem c2_region_file_name_counterexample :
    region_file_name 0 0 = "region/r_0_0.mca" ∧
    region_file_name 0 0 ≠ "region/r.0.0.mca" := by
  constructor
  · decide
  · decide

/-- C2, amended: `read_chunk` computes region coordinates by arithmetic shift
(`cx >> 5` is floor division by 32), opens `region/r_{rx}_{rz}.mca`
(underscore form) under the world path, computes the local coordinates with a
non-negative floor-mod, and reads the location-table entry at byte index
`(lx + lz * 32) * 4` — the locate step depends on the table only through the
four bytes at that index. -/
theorem c2_read_chunk_locate_amended :
    ∀ (cx cz : Int) (tableA tableB : List Nat),
      (region_coords cx cz = (Int.fdiv cx 32, Int.fdiv cz 32)) ∧
      (region_file_name cx cz =
        "region/r_" ++ toString (Int.fdiv cx 32) ++ "_"
          ++ toString (Int.fdiv cz 32) ++ ".mca") ∧
      (modulus cx 32 = cx % 32 ∧ 0 ≤ modulus cx 32 ∧ modulus cx 32 < 32) ∧
      ((table_entry cx cz : Int) = (cx % 32 + cz % 32 * 32) * 4) ∧
      ((∀ i, i < 4 →
          tableA.getD (table_entry cx cz + i) 0 =
            tableB.getD (table_entry cx cz + i) 0) →
        read_chunk_locate tableA cx cz = read_chunk_locate tableB cx cz) := by
  intro cx cz tableA tableB
  refine ⟨?_, ?_, ⟨modulus_32_eq_emod cx, modulus_32_nonneg cx, modulus_32_lt cx⟩, ?_, ?_⟩
  · unfold region_coords
    rw [shiftRight_five_eq_fdiv, shiftRight_five_eq_fdiv]
  · unfold region_file_name region_coords
    rw [shiftRight_five_eq_fdiv, shiftRight_five_eq_fdiv]
  · unfold table_entry
    have h1 := modulus_32_nonneg cx
    have h3 := modulus_32_nonneg cz
    have e1 := modulus_32_eq_emod cx
    have e2 := modulus_32_eq_emod cz
    push_cast
    omega
  · intro h
    have h0 := h 0 (by norm_num)
    have h1 := h 1 (by norm_num)
    have h2 := h 2 (by norm_num)
    have h3 := h 3 (by norm_num)
    rw [Nat.add_zero] at h0
    simp only [read_chunk_locate, location_entry]
    rw [h0, h1, h2, h3]

/-- An all-zero list reads zero at every position with default zero. -/
theorem getD_replicate_zero (n : Nat) : ∀ i, (List.replicate n (0 : Nat)).getD i 0 = 0 := by
  induction n with
  | zero => intro i; rfl
  | succ n ih =>
    intro i
    cases i with
    | zero => rfl
    | succ j =>
      rw [List.replicate_succ, List.getD_cons_succ]
      exact ih j

/-- C2, witness: the locate step on the all-zero 4096-byte table agrees with
the empty table (both read the same four zero bytes and report `NotFound`). -/
theorem c2_read_chunk_locate_witness :
    read_chunk_locate (List.replicate 4096 0) (-33) 70 =
      read_chunk_locate [] (-33) 70 := by
  refine (c2_read_chunk_locate_amended (-33) 70 (List.replicate 4096 0) []).2.2.2.2 ?_
  intro i _
  rw [getD_replicate_zero]
  rfl

/-- C6: when all four bytes of the chunk's location-table entry are zero, the
locate step of `read_chunk` reports `NotFound`, and the entry index (plus its
last byte) is always inside the 4096-byte table, so the table access cannot
go out of bounds. -/
theorem c6_zero_entry_not_found :
    ∀ (table : List Nat) (cx cz : Int),
      (∀ i, i < 4 → table.getD (table_entry cx cz + i) 0 = 0) →
      read_chunk_locate table cx cz = .error .NotFound ∧
      table_entry cx cz + 3 < 4096 := by
  intro table cx cz h
  refine ⟨?_, table_entry_bound cx cz⟩
  have h0 := h 0 (by norm_num)
  have h1 := h 1 (by norm_num)
  have h2 := h 2 (by norm_num)
  have h3 := h 3 (by norm_num)
  rw [Nat.add_zero] at h0
  simp only [read_chunk_locate, location_entry]
  rw [h0, h1, h2, h3]
  simp

/-- C6, witness: an all-zero location table yields `NotFound` for chunk
`(5, -7)`. -/
theorem c6_zero_entry_witness :
    read_chunk_locate (List.replicate 4096 0) 5 (-7) = .error .NotFound := by
  refine (c6_zero_entry_not_found (List.replicate 4096 0) 5 (-7) ?_).1
  intro i _
  exact getD_replicate_zero 4096 _

/-- C1, counterexample: a section whose `block_states` field is absent is
skipped by `continue` without touching the write index — the resulting state
keeps index 0 instead of the claimed `SUBCHUNK_VOLUME`. -/
theorem c1_blockstates_absent_counterexample :
    process_section 4096 (fun _ => none) 0 ⟨[], 0⟩ ⟨0, none⟩ = some ⟨[], 0⟩ ∧
    (⟨[], 0⟩ : DecodeState) ≠ ⟨[], 0 + SUBCHUNK_VOLUME⟩ := by
  constructor
  · rfl
  · decide

/-- C1, amended: in the section loop of `to_chunk_data`, a section whose
`block_states` is absent is skipped with the write index unchanged, while a
section whose `block_states` is present but whose `data` is absent advances
the write index by exactly `SUBCHUNK_VOLUME` (so only the latter keeps later
sections at the positions they would have had if it had been decoded). -/
theorem c1_section_skip_amended :
    ∀ (vol : Nat) (registry : String → Option Nat) (air_id : Nat)
      (st : DecodeState) (sec : ChunkSection),
      (sec.block_states = none →
        process_section vol registry air_id st sec = some st) ∧
      (∀ bs, sec.block_states = some bs → bs.data = none →
        process_section vol registry air_id st sec =
          some { st with block_index := st.block_index + SUBCHUNK_VOLUME }) := by
  intro vol registry air_id st sec
  constructor
  · intro h
    simp [process_section, h]
  · intro bs h1 h2
    simp [process_section, h1, h2]

/-- C1, witness: a present-but-dataless section advances the index from 5 to
`5 + SUBCHUNK_VOLUME`. -/
theorem c1_section_skip_witness :
    process_section 4096 (fun _ => none) 0 ⟨[], 5⟩ ⟨2, some ⟨none, ["x"]⟩⟩ =
      some ⟨[], 5 + SUBCHUNK_VOLUME⟩ := by
  exact (c1_section_skip_amended 4096 (fun _ => none) 0 ⟨[], 5⟩
    ⟨2, some ⟨none, ["x"]⟩⟩).2 ⟨none, ["x"]⟩ rfl rfl

/-- The fuel-bounded bit length never exceeds its fuel. -/
theorem bit_len_aux_le (fuel : Nat) : ∀ n, bit_len_aux fuel n ≤ fuel := by
  induction fuel with
  | zero => intro n; simp [bit_len_aux]
  | succ f ih =>
    intro n
    simp only [bit_len_aux]
    split
    · omega
    · have := ih (n / 2)
      omega

/-- Characterization of the fuel-bounded bit length: with enough fuel it is at
most `k` exactly when the value is below `2 ^ k`. -/
theorem bit_len_aux_le_iff (fuel : Nat) :
    ∀ n k, n < 2 ^ fuel → (bit_len_aux fuel n ≤ k ↔ n < 2 ^ k) := by
  induction fuel with
  | zero =>
    intro n k h
    have hn : n = 0 := by simpa using h
    subst hn
    have hp : 0 < 2 ^ k := Nat.pos_pow_of_pos k (by norm_num)
    simp only [bit_len_aux, Nat.zero_le, true_iff]
    exact hp
  | succ f ih =>
    intro n k h
    simp only [bit_len_aux]
    split
    · rename_i h0
      subst h0
      have hp : 0 < 2 ^ k := Nat.pos_pow_of_pos k (by norm_num)
      simp only [Nat.zero_le, true_iff]
      exact hp
    · rename_i h0
      cases k with
      | zero =>
        simp only [Nat.pow_zero]
        omega
      | succ k2 =>
        have hdiv : n / 2 < 2 ^ f := by
          rw [Nat.div_lt_iff_lt_mul (by norm_num)]
          rw [Nat.pow_succ] at h
          exact h
        rw [Nat.succ_le_succ_iff, ih (n / 2) k2 hdiv,
          Nat.div_lt_iff_lt_mul (by norm_num), Nat.pow_succ]

/-- The bit length of `p - 1` is the ceiling base-two logarithm of `p`. -/
theorem bit_len_aux_eq_clog (p : Nat) (h1 : 1 ≤ p) (h2 : p ≤ 2 ^ 63) :
    bit_len_aux 64 (p - 1) = Nat.clog 2 p := by
  have hlt : p - 1 < 2 ^ 64 := by
    have : (2 : Nat) ^ 63 < 2 ^ 64 := by norm_num
    omega
  apply le_antisymm
  · rw [bit_len_aux_le_iff 64 (p - 1) _ hlt]
    have := (Nat.le_pow_iff_clog_le (by norm_num : 1 < 2)).mpr
      (le_refl (Nat.clog 2 p))
    omega
  · have hb : p - 1 < 2 ^ bit_len_aux 64 (p - 1) :=
      (bit_len_aux_le_iff 64 (p - 1) _ hlt).mp (le_refl _)
    exact (Nat.le_pow_iff_clog_le (by norm_num : 1 < 2)).mp (by omega)

/-- The code's bit-width formula equals `max 4 ⌈log2 p⌉`. -/
theorem block_bit_size_eq (p : Nat) (h1 : 1 ≤ p) (h2 : p ≤ 2 ^ 63) :
    block_bit_size p = max 4 (Nat.clog 2 p) := by
  unfold block_bit_size leading_zeros_i64
  have hneg : ¬((p : Int) - 1 < 0) := by omega
  rw [if_neg hneg]
  have htn : ((p : Int) - 1).toNat = p - 1 := by omega
  rw [htn]
  have hle := bit_len_aux_le 64 (p - 1)
  have hc := bit_len_aux_eq_clog p h1 h2
  rw [show 64 - (64 - bit_len_aux 64 (p - 1)) = bit_len_aux 64 (p - 1) by omega, hc]

/-- C7: for palette size `p ≥ 1` (below the `i64` range bound), the block bit
width computed by `to_chunk_data` is `max(4, 64 − leading_zeros(p − 1))`,
which equals `max 4 ⌈log2 p⌉`; a palette of size 1 uses 4-bit lanes; blocks
per 64-bit word is `64 / bit_width` by integer division; and each lane is
`(word >> (lane·bit_width)) & ((1 << bit_width) − 1)`, i.e. the shifted word
reduced modulo `2 ^ bit_width`. -/
theorem c7_block_bit_width :
    ∀ (p : Nat), 1 ≤ p → p ≤ 2 ^ 63 →
      block_bit_size p = max 4 (64 - leading_zeros_i64 ((p : Int) - 1)) ∧
      block_bit_size p = max 4 (Nat.clog 2 p) ∧
      block_bit_size 1 = 4 ∧
      blocks_in_pallete p = 64 / block_bit_size p ∧
      (∀ word i, extract_lane word i (block_bit_size p) =
        (word >>> (i * block_bit_size p)) &&& (2 ^ block_bit_size p - 1)) ∧
      (∀ word i, extract_lane word i (block_bit_size p) =
        (word >>> (i * block_bit_size p)) % 2 ^ block_bit_size p) := by
  intro p h1 h2
  have heq := block_bit_size_eq p h1 h2
  have hle : block_bit_size p ≤ 63 := by
    rw [heq]
    have : Nat.clog 2 p ≤ 63 :=
      (Nat.le_pow_iff_clog_le (by norm_num : 1 < 2)).mp h2
    omega
  have hmask : mask_of (block_bit_size p) = 2 ^ block_bit_size p - 1 := by
    unfold mask_of
    rw [Nat.mod_eq_of_lt (by omega), Nat.shiftLeft_eq, one_mul]
  refine ⟨rfl, heq, by decide, rfl, ?_, ?_⟩
  · intro word i
    unfold extract_lane
    rw [hmask]
  · intro word i
    unfold extract_lane
    rw [hmask, Nat.and_pow_two_sub_one_eq_mod]

/-- C7, witness: palette size 3 gives 4-bit lanes; lane 3 of the word
`0x2001` decodes to palette index 2. -/
theorem c7_block_bit_width_witness :
    block_bit_size 3 = max 4 (Nat.clog 2 3) ∧
    extract_lane 8193 3 (block_bit_size 3) =
      (8193 >>> (3 * block_bit_size 3)) % 2 ^ block_bit_size 3 := by
  have h := c7_block_bit_width 3 (by norm_num) (by norm_num)
  exact ⟨h.2.1, h.2.2.2.2.2 8193 3⟩

/-- The pop-until-below-capacity loop brings the full cache strictly below
`MAX_CACHED_SIGNATURES`. -/
theorem pop_back_while_full_length (l : List Sig) :
    (pop_back_while_full l).length ≤ 127 := by
  induction l using pop_back_while_full.induct with
  | case1 l h ih =>
    rw [pop_back_while_full]
    simp only [if_pos h]
    exact ih
  | case2 l h =>
    rw [pop_back_while_full]
    simp only [if_neg h]
    omega

/-- Folding the `cache_signatures` loop body never pushes the cache above
capacity and leaves the last-seen list untouched. -/
theorem cache_one_fold_bound (l : List Sig) :
    ∀ c : MessageCache, c.full_cache.length ≤ 128 →
      (l.foldl cache_one c).full_cache.length ≤ 128 ∧
      (l.foldl cache_one c).last_seen = c.last_seen := by
  induction l with
  | nil => exact fun c h => ⟨h, rfl⟩
  | cons s rest ih =>
    intro c h
    simp only [List.foldl_cons]
    by_cases h1 : s ∈ c.full_cache
    · rw [cache_one, if_pos h1]
      exact ih c h
    · rw [cache_one, if_neg h1]
      by_cases h2 : c.full_cache.length < MAX_CACHED_SIGNATURES
      · rw [if_pos h2]
        have := ih { c with full_cache := c.full_cache ++ [s] } (by
          simp only [List.length_append, List.length_cons, List.length_nil]
          unfold MAX_CACHED_SIGNATURES at h2
          omega)
        exact this
      · rw [if_neg h2]
        exact ih c h

/-- Applying `add_seen_signature` keeps both bounds. -/
theorem add_seen_signature_bound (c : MessageCache) (sig : Sig)
    (h : c.last_seen.length ≤ 20) :
    (add_seen_signature c sig).full_cache.length ≤ 128 ∧
    (add_seen_signature c sig).last_seen.length ≤ 20 := by
  unfold add_seen_signature
  constructor
  · have := pop_back_while_full_length c.full_cache
    simp only [List.length_cons]
    omega
  · simp only [List.length_append, List.length_cons, List.length_nil]
    by_cases h1 : MAX_PREVIOUS_MESSAGES ≤ c.last_seen.length
    · rw [if_pos h1]
      unfold MAX_PREVIOUS_MESSAGES at h1
      simp only [List.length_drop]
      omega
    · rw [if_neg h1]
      unfold MAX_PREVIOUS_MESSAGES at h1
      omega

/-- C8: after any finite sequence of `add_seen_signature` and
`cache_signatures` calls starting from the default empty cache, the full
signature cache holds at most 128 entries and the last-seen list at most 20. -/
theorem c8_cache_bounds :
    ∀ ops : List CacheOp,
      (apply_ops MessageCache.default ops).full_cache.length ≤ 128 ∧
      (apply_ops MessageCache.default ops).last_seen.length ≤ 20 := by
  have key : ∀ (ops : List CacheOp) (c : MessageCache),
      c.full_cache.length ≤ 128 → c.last_seen.length ≤ 20 →
      (apply_ops c ops).full_cache.length ≤ 128 ∧
      (apply_ops c ops).last_seen.length ≤ 20 := by
    intro ops
    induction ops with
    | nil => exact fun c h1 h2 => ⟨h1, h2⟩
    | cons op rest ih =>
      intro c h1 h2
      have step : (apply_op c op).full_cache.length ≤ 128 ∧
          (apply_op c op).last_seen.length ≤ 20 := by
        cases op with
        | addSeen sig => exact add_seen_signature_bound c sig h2
        | cacheSigs sigs =>
          have := cache_one_fold_bound sigs.reverse c h1
          exact ⟨this.1, by rw [apply_op, cache_signatures, this.2]; exact h2⟩
      have : apply_ops c (op :: rest) = apply_ops (apply_op c op) rest := rfl
      rw [this]
      exact ih (apply_op c op) step.1 step.2
  intro ops
  exact key ops MessageCache.default (by simp [MessageCache.default]) (by simp [MessageCache.default])

/-- C9: `indexed_for` is deterministic (it is a pure function of the sender's
last-seen list and the recipient's full cache), preserves length and order,
and emits, for the signature at each position: `id = i + 1` with no signature
when the recipient's `full_cache` contains it first at position `i`, and
`id = 0` carrying the full signature when it does not. -/
theorem c9_indexed_for_spec :
    ∀ (seen full_cache : List Sig),
      indexed_for seen full_cache = indexed_for seen full_cache ∧
      (indexed_for seen full_cache).length = seen.length ∧
      (∀ (k : Nat) (sig : Sig), seen[k]? = some sig →
        (sig ∈ full_cache →
          ∃ i, i < full_cache.length ∧ full_cache[i]? = some sig ∧
            (∀ j, j < i → full_cache[j]? ≠ some sig) ∧
            (indexed_for seen full_cache)[k]? =
              some (PreviousMessage.mk (1 + (i : Int)) none)) ∧
        (sig ∉ full_cache →
          (indexed_for seen full_cache)[k]? =
            some (PreviousMessage.mk 0 (some sig)))) := by
  intro seen cache
  refine ⟨rfl, by simp [indexed_for], ?_⟩
  intro k sig hk
  have hmap : (indexed_for seen cache)[k]? =
      some (match cache.findIdx? (fun s => decide (s = sig)) with
        | some i => PreviousMessage.mk (1 + (i : Int)) none
        | none => PreviousMessage.mk 0 (some sig)) := by
    simp [indexed_for, List.getElem?_map, hk]
  cases hf : cache.findIdx? (fun s => decide (s = sig)) with
  | some i =>
    obtain ⟨hilen, hidx⟩ := List.findIdx?_eq_some_iff_findIdx_eq.mp hf
    obtain ⟨hpi, hpj⟩ := (List.findIdx_eq hilen).mp hidx
    have hcei : cache[i] = sig := by simpa using hpi
    rw [hf] at hmap
    constructor
    · intro _
      refine ⟨i, hilen, ?_, ?_, hmap⟩
      · rw [List.getElem?_eq_getElem hilen, hcei]
      · intro j hj
        have hjlen : j < cache.length := lt_trans hj hilen
        have hne : cache[j] ≠ sig := by simpa using hpj j hj
        rw [List.getElem?_eq_getElem hjlen]
        intro hc
        exact hne (Option.some_injective _ hc)
    · intro hnot
      exact absurd (hcei ▸ List.getElem_mem hilen) hnot
  | none =>
    have hall := List.findIdx?_eq_none_iff.mp hf
    rw [hf] at hmap
    constructor
    · intro hmem
      have := hall sig hmem
      simp at this
    · intro _
      exact hmap

/-- C9, witness: with last-seen `[[9]]` and recipient cache `[[5], [9]]`, the
single output entry references cache position 1 as id 2 with no signature. -/
theorem c9_indexed_for_witness :
    ∃ i, i < ([[5], [9]] : List Sig).length ∧
      ([[5], [9]] : List Sig)[i]? = some [9] ∧
      (∀ j, j < i → ([[5], [9]] : List Sig)[j]? ≠ some [9]) ∧
      (indexed_for [[9]] [[5], [9]])[0]? =
        some (PreviousMessage.mk (1 + (1 : Int)) none) := by
  have h := ((c9_indexed_for_spec [[9]] [[5], [9]]).2.2 0 [9] rfl).1 (by decide)
  obtain ⟨i, hi, hg, hj, hout⟩ := h
  -- the first occurrence of [9] in [[5], [9]] is position 1
  have hi2 : i < 2 := by simpa using hi
  have : i = 0 ∨ i = 1 := by omega
  rcases this with h0 | h1
  · subst h0
    exact absurd hg (by decide)
  · subst h1
    exact ⟨1, hi, hg, hj, by exact_mod_cast hout⟩

/-- The flat index recomputed by `convert_index` from the derived coordinates
is the write index itself. -/
theorem flat_index_eq (bi : Nat) :
    bi / CHUNK_AREA * CHUNK_AREA + bi % CHUNK_AREA / 16 * 16 + bi % 16 = bi := by
  unfold CHUNK_AREA
  omega

/-- A write below the volume bound succeeds and advances the index by one. -/
theorem set_block_lt (vol : Nat) (st : DecodeState) (id : Nat)
    (h : st.block_index < vol) :
    set_block_no_heightmap_update vol st id =
      some ⟨st.blocks.set st.block_index id, st.block_index + 1⟩ := by
  simp only [set_block_no_heightmap_update]
  rw [flat_index_eq st.block_index, if_pos h]

/-- The lane counter never decreases the index. -/
theorem lanes_count_lower (rem : Nat) : ∀ idx, idx ≤ (lanes_count rem idx).1 := by
  induction rem with
  | zero => intro idx; exact Nat.le_refl idx
  | succ rem ih =>
    intro idx
    simp only [lanes_count]
    split
    · exact Nat.le_succ idx
    · exact Nat.le_trans (Nat.le_succ idx) (ih (idx + 1))

/-- Soundness of the lane loop against its index mirror: when every lane of
the word indexes inside the palette and the mirrored final index stays within
the volume, the loop succeeds and ends exactly at the mirrored index with the
mirrored break flag. -/
theorem run_lanes_sound (vol : Nat) (pal : List Nat) (bbs word : Nat) :
    ∀ (rem i : Nat) (st : DecodeState),
      (∀ j, j < i + rem → extract_lane word j bbs < pal.length) →
      (lanes_count rem st.block_index).1 ≤ vol →
      ∃ st2, run_lanes vol pal bbs word i rem st =
          some (st2, (lanes_count rem st.block_index).2) ∧
        st2.block_index = (lanes_count rem st.block_index).1 := by
  intro rem
  induction rem with
  | zero =>
    intro i st _ _
    exact ⟨st, rfl, rfl⟩
  | succ rem ih =>
    intro i st hlan hbound
    have hx : extract_lane word i bbs < pal.length := hlan i (by omega)
    have hid : pal[extract_lane word i bbs]? = some (pal.get ⟨extract_lane word i bbs, hx⟩) :=
      List.getElem?_eq_getElem hx
    have h1 : st.block_index + 1 ≤ (lanes_count (rem + 1) st.block_index).1 := by
      simp only [lanes_count]
      split
      · exact Nat.le_refl _
      · exact lanes_count_lower rem (st.block_index + 1)
    have hlt : st.block_index < vol := by omega
    have hsb := set_block_lt vol st (pal.get ⟨extract_lane word i bbs, hx⟩) hlt
    have step : run_lanes vol pal bbs word i (rem + 1) st =
        (if (st.block_index + 1) % SUBCHUNK_VOLUME = 0 then
          some (⟨st.blocks.set st.block_index (pal.get ⟨extract_lane word i bbs, hx⟩),
            st.block_index + 1⟩, true)
        else run_lanes vol pal bbs word (i + 1) rem
          ⟨st.blocks.set st.block_index (pal.get ⟨extract_lane word i bbs, hx⟩),
            st.block_index + 1⟩) := by
      simp only [run_lanes, hid, hsb]
    by_cases hb : (st.block_index + 1) % SUBCHUNK_VOLUME = 0
    · have hc : lanes_count (rem + 1) st.block_index = (st.block_index + 1, true) := by
        simp only [lanes_count, if_pos hb]
      refine ⟨⟨st.blocks.set st.block_index (pal.get ⟨extract_lane word i bbs, hx⟩),
        st.block_index + 1⟩, ?_, ?_⟩
      · rw [step, if_pos hb, hc]
      · rw [hc]
    · have hc : lanes_count (rem + 1) st.block_index = lanes_count rem (st.block_index + 1) := by
        simp only [lanes_count, if_neg hb]
      have hb2 : (lanes_count rem (st.block_index + 1)).1 ≤ vol := by
        rw [← hc]
        exact hbound
      obtain ⟨st2, he, hbi⟩ := ih (i + 1)
        ⟨st.blocks.set st.block_index (pal.get ⟨extract_lane word i bbs, hx⟩),
          st.block_index + 1⟩
        (fun j hj => hlan j (by omega)) hb2
      dsimp only at he hbi
      refine ⟨st2, ?_, ?_⟩
      · rw [step, if_neg hb, he, hc]
      · rw [hbi, hc]

/-- The word counter never decreases the index. -/
theorem words_count_lower (bip : Nat) : ∀ n idx, idx ≤ words_count bip n idx := by
  intro n
  induction n with
  | zero => intro idx; exact Nat.le_refl idx
  | succ n ih =>
    intro idx
    simp only [words_count]
    split
    · exact lanes_count_lower bip idx
    · exact Nat.le_trans (lanes_count_lower bip idx) (ih _)

/-- Soundness of the word loop against its index mirror. -/
theorem run_words_sound (vol : Nat) (pal : List Nat) (bbs bip : Nat) :
    ∀ (ws : List Nat) (st : DecodeState),
      (∀ w ∈ ws, ∀ j, j < bip → extract_lane w j bbs < pal.length) →
      words_count bip ws.length st.block_index ≤ vol →
      ∃ st2, run_words vol pal bbs bip ws st = some st2 ∧
        st2.block_index = words_count bip ws.length st.block_index := by
  intro ws
  induction ws with
  | nil => exact fun st _ _ => ⟨st, rfl, rfl⟩
  | cons w ws ih =>
    intro st hlan hbound
    simp only [List.length_cons] at hbound
    have hwc : words_count bip (ws.length + 1) st.block_index =
        (if (lanes_count bip st.block_index).2 then (lanes_count bip st.block_index).1
         else words_count bip ws.length (lanes_count bip st.block_index).1) := by
      simp only [words_count]
    have hl1 : (lanes_count bip st.block_index).1 ≤ vol := by
      by_cases hbk : (lanes_count bip st.block_index).2
      · rw [hwc, if_pos hbk] at hbound
        exact hbound
      · rw [hwc, if_neg hbk] at hbound
        exact Nat.le_trans (words_count_lower bip ws.length _) hbound
    obtain ⟨stL, heL, hbiL⟩ := run_lanes_sound vol pal bbs w bip 0 st
      (fun j hj => hlan w (List.mem_cons_self w ws) j (by omega)) hl1
    by_cases hbk : (lanes_count bip st.block_index).2
    · refine ⟨stL, ?_, ?_⟩
      · simp only [run_words]
        rw [heL, hbk]
      · rw [hbiL, List.length_cons, hwc, if_pos hbk]
    · have hbf : (lanes_count bip st.block_index).2 = false := by
        simpa using hbk
      have hb2 : words_count bip ws.length stL.block_index ≤ vol := by
        rw [hbiL]
        rw [hwc, if_neg hbk] at hbound
        exact hbound
      obtain ⟨st2, he2, hbi2⟩ := ih stL
        (fun w2 hw2 j hj => hlan w2 (List.mem_cons_of_mem w hw2) j hj) hb2
      refine ⟨st2, ?_, ?_⟩
      · simp only [run_words]
        rw [heL, hbf]
        exact he2
      · rw [hbi2, hbiL, List.length_cons, hwc, if_neg hbk]

/-- One section never decreases the index. -/
theorem section_index_lower (sec : ChunkSection) (idx : Nat) :
    idx ≤ section_index sec idx := by
  unfold section_index
  cases hbs : sec.block_states with
  | none => exact Nat.le_refl idx
  | some bs =>
    dsimp only
    cases hd : bs.data with
    | none =>
      dsimp only
      omega
    | some ws =>
      dsimp only
      exact words_count_lower _ ws.length idx

/-- Unfolding of the mirrored index over a cons of sections. -/
theorem final_index_cons (sec : ChunkSection) (rest : List ChunkSection) (idx : Nat) :
    final_index (sec :: rest) idx = final_index rest (section_index sec idx) := rfl

/-- The mirrored final index never decreases. -/
theorem final_index_lower (sections : List ChunkSection) :
    ∀ idx, idx ≤ final_index sections idx := by
  induction sections with
  | nil => intro idx; exact Nat.le_refl idx
  | cons sec rest ih =>
    intro idx
    rw [final_index_cons]
    exact Nat.le_trans (section_index_lower sec idx) (ih _)

/-- Soundness of the whole section loop against its index mirror: when every
decoded lane indexes inside its section's palette and the mirrored final index
stays within the volume, decoding succeeds (no palette lookup and no block
write goes out of bounds) and ends exactly at the mirrored index. -/
theorem decode_sections_sound (vol : Nat) (registry : String → Option Nat) (air_id : Nat) :
    ∀ (sections : List ChunkSection) (st : DecodeState),
      (∀ sec ∈ sections, ∀ w ∈ section_data sec, ∀ j,
        j < 64 / block_bit_size (section_palette_len sec) →
        extract_lane w j (block_bit_size (section_palette_len sec)) <
          section_palette_len sec) →
      final_index sections st.block_index ≤ vol →
      ∃ st2, decode_sections vol registry air_id sections st = some st2 ∧
        st2.block_index = final_index sections st.block_index := by
  intro sections
  induction sections with
  | nil => exact fun st _ _ => ⟨st, rfl, rfl⟩
  | cons sec rest ih =>
    intro st hlan hbound
    rw [final_index_cons] at hbound
    have hlanrest := fun s hs => hlan s (List.mem_cons_of_mem sec hs)
    cases hbs : sec.block_states with
    | none =>
      have hp : process_section vol registry air_id st sec = some st := by
        simp [process_section, hbs]
      have hsi : section_index sec st.block_index = st.block_index := by
        simp [section_index, hbs]
      rw [hsi] at hbound
      obtain ⟨st2, he, hbi⟩ := ih st hlanrest hbound
      refine ⟨st2, ?_, ?_⟩
      · simp only [decode_sections]
        rw [hp]
        exact he
      · rw [final_index_cons, hsi]
        exact hbi
    | some bs =>
      cases hd : bs.data with
      | none =>
        have hp : process_section vol registry air_id st sec =
            some { st with block_index := st.block_index + SUBCHUNK_VOLUME } := by
          simp [process_section, hbs, hd]
        have hsi : section_index sec st.block_index =
            st.block_index + SUBCHUNK_VOLUME := by
          simp [section_index, hbs, hd]
        rw [hsi] at hbound
        obtain ⟨st2, he, hbi⟩ :=
          ih { st with block_index := st.block_index + SUBCHUNK_VOLUME } hlanrest hbound
        refine ⟨st2, ?_, ?_⟩
        · simp only [decode_sections]
          rw [hp]
          exact he
        · rw [final_index_cons, hsi]
          exact hbi
      | some ws =>
        have hplen : (bs.palette.map (fun entry => (registry entry).getD air_id)).length
            = bs.palette.length := List.length_map _ _
        have hsplen : section_palette_len sec = bs.palette.length := by
          simp [section_palette_len, hbs]
        have hsdata : section_data sec = ws := by
          simp [section_data, hbs, hd]
        have hp : process_section vol registry air_id st sec =
            run_words vol (bs.palette.map (fun entry => (registry entry).getD air_id))
              (block_bit_size bs.palette.length) (64 / block_bit_size bs.palette.length)
              ws st := by
          simp only [process_section, hbs, hd]
          rw [hplen]
        have hsi : section_index sec st.block_index =
            words_count (64 / block_bit_size bs.palette.length) ws.length
              st.block_index := by
          simp [section_index, hbs, hd]
        have hlan1 : ∀ w ∈ ws, ∀ j, j < 64 / block_bit_size bs.palette.length →
            extract_lane w j (block_bit_size bs.palette.length) <
              (bs.palette.map (fun entry => (registry entry).getD air_id)).length := by
          intro w hw j hj
          rw [hplen]
          have := hlan sec (List.mem_cons_self sec rest) w (by rw [hsdata]; exact hw) j
          rw [hsplen] at this
          exact this hj
        have hwb : words_count (64 / block_bit_size bs.palette.length) ws.length
            st.block_index ≤ vol := by
          rw [← hsi]
          exact Nat.le_trans (final_index_lower rest _) hbound
        obtain ⟨stW, heW, hbiW⟩ := run_words_sound vol
          (bs.palette.map (fun entry => (registry entry).getD air_id))
          (block_bit_size bs.palette.length) (64 / block_bit_size bs.palette.length)
          ws st hlan1 hwb
        rw [← hsi] at hbiW
        obtain ⟨st2, he2, hbi2⟩ := ih stW hlanrest (by rw [hbiW]; exact hbound)
        refine ⟨st2, ?_, ?_⟩
        · simp only [decode_sections]
          rw [hp, heW]
          exact he2
        · rw [final_index_cons, hbi2, hbiW]

/-- C10, counterexample: the stated precondition is insufficient. With world
height 16 (`CHUNK_VOLUME = 4096`), a section with `block_states` present but
`data` absent bumps the write index by `SUBCHUNK_VOLUME` without writing any
block; a following one-word section with palette `["a"]` then writes at flat
index 4096, out of bounds — `to_chunk_data` panics even though every lane
indexes inside its palette and only 16 blocks are ever written. -/
theorem c10_skip_overflow_counterexample :
    to_chunk_data 16 (fun _ => none) 0
      ⟨"minecraft:full", 4189,
        [⟨0, some ⟨none, ["a"]⟩⟩, ⟨1, some ⟨some [0], ["a"]⟩⟩], [], []⟩ = none ∧
    total_writes [⟨0, some ⟨none, ["a"]⟩⟩, ⟨1, some ⟨some [0], ["a"]⟩⟩] = 16 ∧
    total_writes [⟨0, some ⟨none, ["a"]⟩⟩, ⟨1, some ⟨some [0], ["a"]⟩⟩] ≤
      CHUNK_VOLUME 16 ∧
    (∀ sec ∈ [(⟨0, some ⟨none, ["a"]⟩⟩ : ChunkSection), ⟨1, some ⟨some [0], ["a"]⟩⟩],
      ∀ w ∈ section_data sec, ∀ j, j < 64 / block_bit_size (section_palette_len sec) →
        extract_lane w j (block_bit_size (section_palette_len sec)) <
          section_palette_len sec) := by
  refine ⟨?_, ?_, ?_, ?_⟩
  · rfl
  · rfl
  · decide
  · decide

/-- C10, amended: strengthening the index bound to count the
`SUBCHUNK_VOLUME` bumps of data-absent sections as well — i.e. the mirrored
final write index stays within `CHUNK_VOLUME` — `to_chunk_data` never
panics on a full, current-version chunk whose decoded lanes all index inside
their palettes: every `pallete[index]` lookup and every dense-array write is
in bounds and the decode returns a block array. -/
theorem c10_no_panic_amended :
    ∀ (worldHeight : Nat) (registry : String → Option Nat) (air_id : Nat)
      (c : AnvilChunkData),
      c.status = "minecraft:full" →
      c.data_version = DATA_VERSION →
      (∀ sec ∈ c.sections, ∀ w ∈ section_data sec, ∀ j,
        j < 64 / block_bit_size (section_palette_len sec) →
        extract_lane w j (block_bit_size (section_palette_len sec)) <
          section_palette_len sec) →
      final_index c.sections 0 ≤ CHUNK_VOLUME worldHeight →
      ∃ blocks, to_chunk_data worldHeight registry air_id c =
        some (.ok blocks) := by
  intro wh reg air c hs hv hlan hfin
  obtain ⟨st2, he, _⟩ := decode_sections_sound (CHUNK_VOLUME wh) reg air c.sections
    ⟨List.replicate (CHUNK_VOLUME wh) 0, 0⟩ hlan hfin
  refine ⟨st2.blocks, ?_⟩
  simp only [to_chunk_data, hs, hv, DATA_VERSION]
  simp only [ne_eq, not_true_eq_false, if_false]
  rw [he]

/-- C10, witness: a single full-palette section of one word decodes without
panicking. -/
theorem c10_no_panic_witness :
    ∃ blocks, to_chunk_data 16 (fun _ => none) 0
      ⟨"minecraft:full", 4189, [⟨0, some ⟨some [0], ["a"]⟩⟩], [], []⟩ =
      some (.ok blocks) := by
  exact c10_no_panic_amended 16 (fun _ => none) 0
    ⟨"minecraft:full", 4189, [⟨0, some ⟨some [0], ["a"]⟩⟩], [], []⟩
    rfl rfl (by decide) (by decide)

end Pumpkin
